import Mathlib

set_option maxHeartbeats 1000000

/-!
Shallow embedding of the chemengine math engine: `src/math_parser.js`
(`tokenize`, `toRPN`, `compile`/`evaluate`) and `src/math_solver.js`
(`findRoot`, `findAllRoots`, `integrate`, `solveLimit`).

JavaScript double-precision numbers are idealized as exact rationals.
The non-finite values (NaN, and `undefined` popped off an empty stack)
are tracked explicitly by `JSVal` wherever a claim depends on them.
`Math.random()` is modelled as an explicit stream of rationals supplied
by the caller; the transcendental builtins (`Math.sin`, ...) are an
abstract environment, since no claim depends on their numeric values.
-/

/-- Value domain of the evaluator: a finite number (idealized as an exact
rational), the non-finite sentinel produced by out-of-domain arithmetic
(JavaScript `NaN`; division by zero, which JavaScript maps to an infinity,
is collapsed to the same non-finite sentinel since no claim distinguishes
them), or JavaScript `undefined` as produced by popping an empty stack. -/
inductive JSVal where
  | num (q : ℚ)
  | nan
  | undef
deriving DecidableEq, Repr

/-- Errors thrown by `compile`, `tokenize`, `toRPN` and the compiled
evaluator (all are `throw new Error(...)` in the source; the constructors
name the distinct messages). -/
inductive JSError where
  | emptyExpr
  | multipleEq
  | unknownName (name : String)
  | badChar (c : Char)
  | mismatchedParens
  | invalidStructure
deriving DecidableEq, Repr

def isWsChar (c : Char) : Bool := c.isWhitespace

def isLowerAlphaChar (c : Char) : Bool := 'a' ≤ c && c ≤ 'z'

def isDigitChar (c : Char) : Bool := '0' ≤ c && c ≤ '9'

def isAlnumChar (c : Char) : Bool := isLowerAlphaChar c || isDigitChar c

def isDigitDotChar (c : Char) : Bool := isDigitChar c || c = '.'

/-- The source's `FUNCTIONS` set (every name has at least two letters). -/
def FUNCTIONS : List String :=
  ["sin", "cos", "tan", "asin", "acos", "atan", "exp", "ln", "log", "log10", "sqrt", "abs"]

/-- Exact rational value of the IEEE-754 double `Math.PI`. -/
def piDouble : ℚ := 884279719003555 / 281474976710656

/-- Exact rational value of the IEEE-754 double `Math.E`. -/
def eDouble : ℚ := 6121026514868073 / 2251799813685248

/-- The rewrite `expr.replace(/\s+/g, '')`: remove all whitespace. -/
def stripWs (l : List Char) : List Char := l.filter (fun c => !isWsChar c)

/-- `.toLowerCase()` on the character list. -/
def toLowerList (l : List Char) : List Char := l.map Char.toLower

/-- One global two-adjacent-character regex replacement pass inserting a
star between a pair matching `(p, q)`; models a non-overlapping global
`String.replace` (after a match both characters are consumed, after a
non-match scanning restarts at the second character). -/
def insertStar (p q : Char → Bool) : List Char → List Char
  | [] => []
  | [c] => [c]
  | c1 :: c2 :: rest =>
    if p c1 && q c2 then c1 :: '*' :: c2 :: insertStar p q rest
    else c1 :: insertStar p q (c2 :: rest)

/-- The source's fourth rewrite, `/([a-z])\(/` with a callback: a letter
directly before `(` gets a star inserted unless the single captured letter
is itself a recognized function name. The capture is one letter while
every recognized name has at least two, so the guard never fires; the
conditional is kept verbatim from the source. -/
def insertStarFn : List Char → List Char
  | [] => []
  | [c] => [c]
  | c1 :: c2 :: rest =>
    if isLowerAlphaChar c1 && c2 = '(' then
      if FUNCTIONS.contains (String.mk [c1]) then c1 :: c2 :: insertStarFn rest
      else c1 :: '*' :: c2 :: insertStarFn rest
    else c1 :: insertStarFn (c2 :: rest)

/-- The whole normalization prefix of `tokenize`: strip whitespace,
lower-case, then the four implicit-multiplication rewrites in source
order. -/
def normalizeExpr (l : List Char) : List Char :=
  insertStarFn
    (insertStar (fun c => c = ')') (fun c => isLowerAlphaChar c || c = '(')
      (insertStar (fun c => c = 'x' || c = ')') isDigitChar
        (insertStar isDigitChar (fun c => isLowerAlphaChar c || c = '(')
          (toLowerList (stripWs l)))))

def digitsVal (l : List Char) : ℕ :=
  l.foldl (fun acc c => 10 * acc + (c.toNat - '0'.toNat)) 0

/-- JavaScript `parseFloat` restricted to the strings the tokenizer feeds
it: nonempty runs of digits and dots. It parses the longest valid decimal
prefix and ignores the rest; a run offering no digits before the rest
begins yields `NaN` (so `parseFloat("1.2.3") = 1.2`, `parseFloat(".") = NaN`). -/
def parseFloatDigits (l : List Char) : JSVal :=
  let intD := l.takeWhile isDigitChar
  let rest := l.drop intD.length
  match rest with
  | '.' :: r =>
    let fracD := r.takeWhile isDigitChar
    if intD.isEmpty && fracD.isEmpty then .nan
    else .num ((digitsVal intD : ℚ) + (digitsVal fracD : ℚ) / 10 ^ fracD.length)
  | _ => if intD.isEmpty then .nan else .num ((digitsVal intD : ℚ))

/-- Tokens of the source's token stream. Constant names are turned into
`num` tokens carrying the constant's value, exactly as in the source. -/
inductive Token where
  | num (v : JSVal)
  | var
  | op (c : Char)
  | unary (neg : Bool)
  | func (name : String)
deriving DecidableEq, Repr

def isOpChar (c : Char) : Bool :=
  c = '+' || c = '-' || c = '*' || c = '/' || c = '^' || c = '(' || c = ')'

/-- Characters of the source's `'+(/*^-'` unary-context string. -/
def unaryPrevChar (c : Char) : Bool :=
  c = '+' || c = '(' || c = '/' || c = '*' || c = '^' || c = '-'

/-- Classification of a scanned identifier, in source order: function set,
constant table, the variable `x`, otherwise the unknown-name error. -/
def classifyName (nm : List Char) : Except JSError Token :=
  if FUNCTIONS.contains (String.mk nm) then .ok (.func (String.mk nm))
  else if String.mk nm = "pi" then .ok (.num (.num piDouble))
  else if String.mk nm = "e" then .ok (.num (.num eDouble))
  else if String.mk nm = "x" then .ok .var
  else .error (.unknownName (String.mk nm))

/-- A character none of the scanner's branches accepts. -/
def scanBadChar (c : Char) : Bool :=
  !(isOpChar c || isLowerAlphaChar c || isDigitDotChar c)

/-- The recognized alphabet of claim C7: whitespace (stripped before the
scan), the `=` consumed by the equation split, and any character that
lower-cases into a character the scanner accepts. -/
def recognizedChar (c : Char) : Bool :=
  isWsChar c || c = '=' || isOpChar c.toLower || isLowerAlphaChar c.toLower ||
    isDigitDotChar c.toLower

/-- The character scan of `tokenize`, carrying the previously examined
character (`expr[i-1]`, `none` at the start) for unary-sign detection.
The first argument is structural fuel: the caller passes the list length,
which always suffices because each step consumes at least one character
(the fuel-exhausted arm is dead code, provable from `length ≤ fuel`). -/
def scanTokensFuel : ℕ → List Char → Option Char → Except JSError (List Token)
  | _, [], _ => .ok []
  | 0, _ :: _, _ => .ok []
  | fuel + 1, c :: rest, prev =>
    if isOpChar c then
      let t : Token :=
        if (c = '-' || c = '+') &&
            (match prev with | none => true | some p => unaryPrevChar p) then
          .unary (c = '-')
        else .op c
      (scanTokensFuel fuel rest (some c)).map (fun ts => t :: ts)
    else if isLowerAlphaChar c then
      let nm := c :: rest.takeWhile isAlnumChar
      let rest2 := rest.dropWhile isAlnumChar
      match classifyName nm with
      | .error e => .error e
      | .ok t => (scanTokensFuel fuel rest2 (some (nm.getLastD c))).map (fun ts => t :: ts)
    else if isDigitDotChar c then
      let ds := c :: rest.takeWhile isDigitDotChar
      let rest2 := rest.dropWhile isDigitDotChar
      (scanTokensFuel fuel rest2 (some (ds.getLastD c))).map
        (fun ts => Token.num (parseFloatDigits ds) :: ts)
    else .error (.badChar c)

def scanTokens (l : List Char) (prev : Option Char) : Except JSError (List Token) :=
  scanTokensFuel l.length l prev

/-- The source's `tokenize`: normalization followed by the scan. -/
def tokenize (l : List Char) : Except JSError (List Token) :=
  scanTokens (normalizeExpr l) none

def PRECEDENCE (c : Char) : ℕ :=
  if c = '+' || c = '-' then 1
  else if c = '*' || c = '/' then 2
  else if c = '^' then 3
  else 0

def RIGHT_ASSOC (c : Char) : Bool := c = '^'

/-- Pop operators for a `)` token until the matching `(`: returns the
emitted tokens (in pop order) and the stack remainder after `(` is
discarded, or `none` when the stack runs out (mismatched parentheses). -/
def popUntilLParen : List Token → List Token → Option (List Token × List Token)
  | [], _ => none
  | t :: ts, acc =>
    if t = .op '(' then some (acc, ts) else popUntilLParen ts (acc ++ [t])

/-- The while-loop run before pushing a binary operator `c`: unary tokens
are popped unconditionally; a `(`, a function token, or an operator of
too-low precedence stops the loop. Returns emitted tokens and remainder. -/
def popForOp (c : Char) : List Token → List Token × List Token
  | [] => ([], [])
  | t :: ts =>
    match t with
    | .unary b =>
      let er := popForOp c ts
      (Token.unary b :: er.1, er.2)
    | .op c2 =>
      if c2 = '(' then ([], Token.op c2 :: ts)
      else if PRECEDENCE c2 > PRECEDENCE c ∨
          (PRECEDENCE c2 = PRECEDENCE c ∧ RIGHT_ASSOC c = false) then
        let er := popForOp c ts
        (Token.op c2 :: er.1, er.2)
      else ([], Token.op c2 :: ts)
    | _ => ([], t :: ts)

/-- The end-of-stream flush: pop every remaining operator to the output,
failing if a parenthesis is still on the stack. -/
def flushOps (out : List Token) : List Token → Except JSError (List Token)
  | [] => .ok out
  | t :: ts =>
    if t = .op '(' ∨ t = .op ')' then .error .mismatchedParens
    else flushOps (out ++ [t]) ts

/-- The source's `toRPN` loop over the token stream, carrying the output
list and the operator stack (head = top of stack). -/
def toRPNGo : List Token → List Token → List Token → Except JSError (List Token)
  | [], out, ops => flushOps out ops
  | t :: ts, out, ops =>
    match t with
    | .num v => toRPNGo ts (out ++ [Token.num v]) ops
    | .var => toRPNGo ts (out ++ [Token.var]) ops
    | .func nm => toRPNGo ts out (Token.func nm :: ops)
    | .unary b => toRPNGo ts out (Token.unary b :: ops)
    | .op c =>
      if c = '(' then toRPNGo ts out (Token.op c :: ops)
      else if c = ')' then
        match popUntilLParen ops [] with
        | none => .error .mismatchedParens
        | some er =>
          match er.2 with
          | .func nm :: rem2 => toRPNGo ts (out ++ er.1 ++ [Token.func nm]) rem2
          | _ => toRPNGo ts (out ++ er.1) er.2
      else
        let er := popForOp c ops
        toRPNGo ts (out ++ er.1) (Token.op c :: er.2)

def toRPN (tokens : List Token) : Except JSError (List Token) :=
  toRPNGo tokens [] []

/-- JavaScript `String.prototype.trim` (both ends). -/
def jsTrim (l : List Char) : List Char :=
  ((l.dropWhile isWsChar).reverse.dropWhile isWsChar).reverse

/-- JavaScript `split` at the `=` character. -/
def splitOnEq : List Char → List (List Char)
  | [] => [[]]
  | c :: rest =>
    let parts := splitOnEq rest
    if c = '=' then [] :: parts
    else
      match parts with
      | p :: ps => (c :: p) :: ps
      | [] => [[c]]

/-- The template string of `compile`: the expression solved is
`(LHS) - (RHS)`. -/
def fullExpr (lhs rhs : List Char) : List Char :=
  '(' :: lhs ++ [')', ' ', '-', ' ', '('] ++ rhs ++ [')']

/-- The source's `compile` up to and including RPN generation; the
JavaScript closure it returns is modelled separately by `evalRun`. -/
def compileProg (s : String) : Except JSError (List Token) :=
  if jsTrim s.data = [] then .error .emptyExpr
  else
    let hasEq := s.data.contains '='
    let parts := splitOnEq s.data
    if hasEq ∧ 2 < parts.length then .error .multipleEq
    else
      let lhs := if hasEq then parts.headD [] else s.data
      let rhs := if hasEq then (parts.drop 1).headD [] else ['0']
      match tokenize (fullExpr lhs rhs) with
      | .error e => .error e
      | .ok ts => toRPN ts

/-- Abstract environment for the transcendental builtins. The `fn` field
is consulted for function tokens; every JavaScript `Math` function used
by the evaluator maps `NaN` (and `undefined`, which coerces to `NaN`) to
`NaN`, recorded as the two proof fields. `Math.pow` obeys no such law
(`pow(NaN, 0) = 1` in JavaScript), so it stays a bare abstract binary. -/
structure MathEnv where
  fn : String → JSVal → JSVal
  powFn : JSVal → JSVal → JSVal
  fn_nan : ∀ s, fn s JSVal.nan = JSVal.nan
  fn_undef : ∀ s, fn s JSVal.undef = JSVal.nan

/-- Coercion of a popped stack slot to a number, as JavaScript arithmetic
does: a missing slot (`undefined`) and `NaN` both behave as `NaN`. -/
def asNum : Option JSVal → Option ℚ
  | some (.num q) => some q
  | _ => none

def jsAdd (a b : Option JSVal) : JSVal :=
  match asNum a, asNum b with
  | some x, some y => .num (x + y)
  | _, _ => .nan

def jsSub (a b : Option JSVal) : JSVal :=
  match asNum a, asNum b with
  | some x, some y => .num (x - y)
  | _, _ => .nan

def jsMul (a b : Option JSVal) : JSVal :=
  match asNum a, asNum b with
  | some x, some y => .num (x * y)
  | _, _ => .nan

/-- Division; JavaScript maps division by zero to an infinity or `NaN`,
collapsed here to the single non-finite sentinel (no claim separates
the non-finite values). -/
def jsDiv (a b : Option JSVal) : JSVal :=
  match asNum a, asNum b with
  | some x, some y => if y = 0 then .nan else .num (x / y)
  | _, _ => .nan

def jsNeg (a : Option JSVal) : JSVal :=
  match asNum a with
  | some x => .num (-x)
  | none => .nan

/-- A popped slot as the raw JavaScript value (for `Math.pow` and the
function calls, which receive `undefined` itself when the stack was
empty). -/
def popVal : Option JSVal → JSVal
  | none => .undef
  | some v => v

/-- The binary-operator dispatch of `evaluate`; returns `none` when the
operator character is none of the five, in which case the source pushes
nothing (the two operands stay consumed). -/
def opApply (env : MathEnv) (c : Char) (a b : Option JSVal) : Option JSVal :=
  if c = '+' then some (jsAdd a b)
  else if c = '-' then some (jsSub a b)
  else if c = '*' then some (jsMul a b)
  else if c = '/' then some (jsDiv a b)
  else if c = '^' then some (env.powFn (popVal a) (popVal b))
  else none

def pushOpt (v : Option JSVal) (st : List JSVal) : List JSVal :=
  match v with
  | none => st
  | some w => w :: st

/-- One instruction of the evaluator's stack machine (stack head = top;
`pop` of an empty stack yields `undefined` exactly as in JavaScript). -/
def evalStep (env : MathEnv) (x : ℚ) (st : List JSVal) (t : Token) : List JSVal :=
  match t with
  | .num v => v :: st
  | .var => .num x :: st
  | .unary bneg =>
    match st with
    | a :: s => (if bneg then jsNeg (some a) else a) :: s
    | [] => (if bneg then jsNeg none else JSVal.undef) :: []
  | .op c =>
    match st with
    | bv :: av :: s => pushOpt (opApply env c (some av) (some bv)) s
    | [bv] => pushOpt (opApply env c none (some bv)) []
    | [] => pushOpt (opApply env c none none) []
  | .func nm =>
    match st with
    | a :: s => env.fn nm a :: s
    | [] => env.fn nm JSVal.undef :: []

/-- The compiled closure `evaluate`: run the stack machine over the whole
postfix program; fail unless exactly one value remains. -/
def evalRun (env : MathEnv) (prog : List Token) (x : ℚ) : Except JSError JSVal :=
  match prog.foldl (evalStep env x) [] with
  | [v] => .ok v
  | _ => .error .invalidStructure

/-- The compiled closure seen together with the ambient `Math.random`
state: the body of `evaluate` in the source never mentions the random
stream, so the faithful translation takes the stream and ignores it. -/
def evalRunR (env : MathEnv) (prog : List Token) (x : ℚ) (_rand : ℕ → ℚ) :
    Except JSError JSVal :=
  evalRun env prog x

/-- The evaluator in store-passing form: the loop reads `rpn[i]` by index
from a store that is returned at the end, so leaving the compiled program
unchanged is provable rather than assumed. -/
def evalLoopSt (env : MathEnv) (x : ℚ) (i : ℕ) (prog : List Token)
    (st : List JSVal) : List Token × List JSVal :=
  if h : i < prog.length then
    evalLoopSt env x (i + 1) prog (evalStep env x st (prog.get ⟨i, h⟩))
  else (prog, st)
termination_by prog.length - i

/-- Store-passing form of a full `evaluate` call: the result value and the
program store as it stands after the call. -/
def evalRunSt (env : MathEnv) (prog : List Token) (x : ℚ) :
    Except JSError JSVal × List Token :=
  let ps := evalLoopSt env x 0 prog []
  (match ps.2 with
   | [v] => .ok v
   | _ => .error .invalidStructure, ps.1)

/-- A concrete environment for witnesses: every builtin returns the
non-finite sentinel. -/
def trivialEnv : MathEnv where
  fn := fun _ _ => JSVal.nan
  powFn := fun _ _ => JSVal.nan
  fn_nan := fun _ => rfl
  fn_undef := fun _ => rfl

/-- A concrete function with roots at 0, −1 and 1 (value 1 elsewhere),
used to exercise the sort-stability conjunct of claim C3 on a run whose
result contains two roots tied in distance from the guess. -/
def tieWitnessFn (x : ℚ) : ℚ := if x = 0 ∨ x = -1 ∨ x = 1 then 0 else 1

def EPSILON : ℚ := 1 / 10 ^ 8

def MAX_ITER : ℕ := 1000

/-- The degenerate-derivative threshold `1e-14` of the secant loop. -/
def DEGEN_TOL : ℚ := 1 / 10 ^ 14

/-- The root-deduplication tolerance `1e-5` of `findAllRoots`. -/
def DEDUP_TOL : ℚ := 1 / 10 ^ 5

/-- Errors thrown by the solver module: the convergence failures and the
numeric-string validation failures of `solveLimit`. -/
inductive SolveErr where
  | convergence (msg : String)
  | parse (msg : String)
deriving DecidableEq, Repr

def findRootMsg : String :=
  "Equation parser: Did not converge to a root. Try a different initial guess."

def findAllRootsMsg : String :=
  "Did not converge to a root. Try a different initial guess or a valid equation."

def solveLimitMsg : String :=
  "Integration limit did not converge. The function might not reach the target area."

/-- The secant loop of `findRoot`, instrumented with the number of secant
updates and of random perturbations performed (the counters are proof
instrumentation; they influence nothing). The fuel starts at `MAX_ITER`
and one unit is consumed per loop pass — secant update or perturbation
alike, exactly as the source's `for` loop counts both — and `i` indexes
the `Math.random()` stream. -/
def findRootAux (f : ℚ → ℚ) (rand : ℕ → ℚ) :
    ℕ → ℕ → ℚ → ℚ → ℚ → ℚ → Except SolveErr ℚ × ℕ × ℕ
  | 0, _, _, _, _, _ => (.error (.convergence findRootMsg), 0, 0)
  | fuel + 1, i, x0, f0, x1, f1 =>
    if |f1 - f0| < DEGEN_TOL then
      let x1p := x1 + (rand i - 1 / 2) * (1 / 10)
      let r := findRootAux f rand fuel (i + 1) x0 f0 x1p (f x1p)
      (r.1, r.2.1, r.2.2 + 1)
    else
      let x2 := x1 - f1 * (x1 - x0) / (f1 - f0)
      let f2 := f x2
      if |f2| < EPSILON then (.ok x2, 1, 0)
      else
        let r := findRootAux f rand fuel (i + 1) x1 f1 x2 f2
        (r.1, r.2.1 + 1, r.2.2)

/-- The source's `findRoot`, returning also the pair (secant updates
performed, random perturbations performed). -/
def findRootSteps (f : ℚ → ℚ) (guess : ℚ) (rand : ℕ → ℚ) :
    Except SolveErr ℚ × ℕ × ℕ :=
  let x0 := guess
  let x1 := guess + 1 / 10
  let f0 := f x0
  let f1 := f x1
  if |f0| < EPSILON then (.ok x0, 0, 0)
  else if |f1| < EPSILON then (.ok x1, 0, 0)
  else findRootAux f rand MAX_ITER 0 x0 f0 x1 f1

def findRoot (f : ℚ → ℚ) (guess : ℚ) (rand : ℕ → ℚ) : Except SolveErr ℚ :=
  (findRootSteps f guess rand).1

/-- The sweep loop of `findAllRoots` over the remaining step indices,
carrying the previous node; returns the roots discovered in sweep order,
paired with the number of inner `findRoot` calls made. `rands i` supplies
the random stream consumed by the inner call at step `i`. -/
def sweepGo (f : ℚ → ℚ) (xStart dx : ℚ) (rands : ℕ → ℕ → ℚ) :
    ℕ → ℕ → ℚ → ℚ → List ℚ × ℕ
  | 0, _, _, _ => ([], 0)
  | rem + 1, i, prevX, prevY =>
    let currX := xStart + i * dx
    let currY := f currX
    let rest := sweepGo f xStart dx rands rem (i + 1) currX currY
    if prevY * currY ≤ 0 then
      match findRoot f ((prevX + currX) / 2) (rands i) with
      | .ok r => (r :: rest.1, rest.2 + 1)
      | .error _ => (rest.1, rest.2 + 1)
    else rest

/-- All candidate roots of `findAllRoots` in discovery order: the root
seeded exactly at the caller's guess first (a failure swallowed), then
the sign-change sweep roots in ascending `x`. -/
def candidateRoots (f : ℚ → ℚ) (guess range : ℚ) (steps : ℕ)
    (rands : ℕ → ℕ → ℚ) : List ℚ :=
  let seeded :=
    match findRoot f guess (rands 0) with
    | .ok r => [r]
    | .error _ => []
  let xStart := guess - range
  let dx := (guess + range - xStart) / (steps : ℚ)
  seeded ++ (sweepGo f xStart dx rands steps 1 xStart (f xStart)).1

/-- The dedup filter of `findAllRoots`: a candidate is dropped when a
previously kept root lies strictly within `1e-5` of it. -/
def dedupRoots (l : List ℚ) : List ℚ :=
  l.foldl
    (fun acc r => if acc.any (fun ur => |r - ur| < DEDUP_TOL) then acc else acc ++ [r]) []

/-- The sort order of `findAllRoots`: ascending absolute distance from the
caller's guess. JavaScript's `Array.prototype.sort` is stable (ES2019),
modelled by the stable `List.mergeSort`. -/
def distLe (guess : ℚ) (a b : ℚ) : Bool := |a - guess| ≤ |b - guess|

/-- The source's `findAllRoots` (the sort happens before the emptiness
check in the source; the order of the two is observably irrelevant). -/
def findAllRoots (f : ℚ → ℚ) (guess range : ℚ) (steps : ℕ)
    (rands : ℕ → ℕ → ℚ) : Except SolveErr (List ℚ) :=
  let uniq := dedupRoots (candidateRoots f guess range steps rands)
  if uniq = [] then .error (.convergence findAllRootsMsg)
  else .ok (uniq.mergeSort (distLe guess))

/-- The padding of the subinterval count to a multiple of 3. -/
def pad3 (n : ℕ) : ℕ := if n % 3 ≠ 0 then n + (3 - n % 3) else n

/-- Simpson 3/8 interior-node weight. -/
def simpsonWeight (i : ℕ) : ℚ := if i % 3 = 0 then 2 else 3

/-- The interior-node accumulation loop of `integrate`, in source order
(`for i = 1; i < n; i++`). -/
def integrateLoop (f : ℚ → ℚ) (a h : ℚ) (n : ℕ) (sum0 : ℚ) : ℚ :=
  (List.range' 1 (n - 1)).foldl (fun sum i => sum + simpsonWeight i * f (a + (i : ℚ) * h)) sum0

/-- The source's `integrate` (composite Simpson 3/8 rule). -/
def integrate (f : ℚ → ℚ) (a b : ℚ) (n0 : ℕ) : ℚ :=
  let n := pad3 n0
  let h := (b - a) / (n : ℚ)
  3 * h / 8 * integrateLoop f a h n (f a + f b)

def jsAddV (a b : JSVal) : JSVal := jsAdd (some a) (some b)

def jsMulV (a b : JSVal) : JSVal := jsMul (some a) (some b)

/-- The same integration loop over the evaluator's value domain, to state
that a non-finite integrand value propagates through the sum instead of
raising an error. -/
def integrateValLoop (f : ℚ → JSVal) (a h : ℚ) (n : ℕ) (sum0 : JSVal) : JSVal :=
  (List.range' 1 (n - 1)).foldl
    (fun sum i => jsAddV sum (jsMulV (.num (simpsonWeight i)) (f (a + (i : ℚ) * h)))) sum0

/-- `integrate` over the evaluator's value domain (same code, values that
may be the non-finite sentinel). -/
def integrateVal (f : ℚ → JSVal) (a b : ℚ) (n0 : ℕ) : JSVal :=
  let n := pad3 n0
  let h := (b - a) / (n : ℚ)
  jsMulV (.num (3 * h / 8)) (integrateValLoop f a h n (jsAddV (f a) (f b)))

/-- JavaScript `parseFloat` on a general user string: skip leading
whitespace, optional sign, then the longest decimal-literal prefix
(digits, optional fraction, optional exponent); trailing garbage is
ignored and `NaN` results when no digits begin the literal. The
`Infinity` literal is not modelled; no claim involves it. -/
def jsParseFloat (s : String) : JSVal :=
  let l := s.data.dropWhile isWsChar
  let sl :=
    match l with
    | '-' :: r => ((-1 : ℚ), r)
    | '+' :: r => ((1 : ℚ), r)
    | _ => ((1 : ℚ), l)
  let intD := sl.2.takeWhile isDigitChar
  let r1 := sl.2.dropWhile isDigitChar
  let fr :=
    match r1 with
    | '.' :: r => (r.takeWhile isDigitChar, r.dropWhile isDigitChar)
    | _ => (([] : List Char), r1)
  if intD.isEmpty && fr.1.isEmpty then .nan
  else
    let mant : ℚ := (digitsVal intD : ℚ) + (digitsVal fr.1 : ℚ) / 10 ^ fr.1.length
    let ex : ℤ :=
      match fr.2 with
      | c :: rest =>
        if c = 'e' || c = 'E' then
          let er :=
            match rest with
            | '-' :: rr => ((-1 : ℤ), rr)
            | '+' :: rr => ((1 : ℤ), rr)
            | _ => ((1 : ℤ), rest)
          let eD := er.2.takeWhile isDigitChar
          if eD.isEmpty then 0 else er.1 * (digitsVal eD : ℤ)
        else 0
      | [] => 0
    .num (sl.1 * mant * (10 : ℚ) ^ ex)

/-- JavaScript `Math.sign` on finite numbers. -/
def jsSign (x : ℚ) : ℚ := if 0 < x then 1 else if x < 0 then -1 else 0

/-- The adaptive subinterval count of `solveLimit`:
`max(30, min(3000, ceil(width * 50)))`. -/
def adaptiveN (a b : ℚ) : ℕ :=
  max 30 (min 3000 (Int.toNat ⌈|b - a| * 50⌉))

/-- The inner objective of `solveLimit`:
`g(x) = integrate(f, a, b, n(width)) − targetArea`. -/
def solveLimitG (f : ℚ → ℚ) (knownLimit targetArea : ℚ) (isUpper : Bool)
    (x : ℚ) : ℚ :=
  let a := if isUpper then knownLimit else x
  let b := if isUpper then x else knownLimit
  integrate f a b (adaptiveN a b) - targetArea

/-- The rectangle-approximation initial guess of `solveLimit`. -/
def solveLimitGuess (f : ℚ → ℚ) (knownLimit targetArea : ℚ) (isUpper : Bool) : ℚ :=
  let valAtKnown := f knownLimit
  let rectHeight := if |valAtKnown| > 1 / 10 ^ 4 then valAtKnown else 1
  let off0 := targetArea / rectHeight
  let off := if |off0| > 1000 then jsSign off0 * 1000 else off0
  if isUpper then knownLimit + off else knownLimit - off

/-- The source's `solveLimit`: validate the two numeric strings, then
delegate to `findRoot` on the integral-difference objective, re-raising
any inner failure with the integration-limit message. -/
def solveLimit (f : ℚ → ℚ) (knownLimitStr : String) (isUpper : Bool)
    (targetAreaStr : String) (rand : ℕ → ℚ) : Except SolveErr ℚ :=
  match jsParseFloat knownLimitStr with
  | .num k =>
    match jsParseFloat targetAreaStr with
    | .num t =>
      match findRoot (solveLimitG f k t isUpper) (solveLimitGuess f k t isUpper) rand with
      | .ok r => .ok r
      | .error _ => .error (.convergence solveLimitMsg)
    | _ => .error (.parse "Area is invalid.")
  | _ => .error (.parse "Known limit is invalid.")

theorem dropWhile_length_le {α : Type} (p : α → Bool) (l : List α) :
    (l.dropWhile p).length ≤ l.length := by
  induction l with
  | nil => simp
  | cons a l ih =>
    by_cases h : p a
    · simp only [List.dropWhile, h, List.length_cons]
      exact Nat.le_succ_of_le ih
    · simp [List.dropWhile, h]

theorem findRootAux_const (f : ℚ → ℚ) (c : ℚ) (hf : ∀ x, f x = c) (rand : ℕ → ℚ) :
    ∀ fuel i x0 x1, findRootAux f rand fuel i x0 c x1 c =
      (.error (.convergence findRootMsg), 0, fuel) := by
  intro fuel
  induction fuel with
  | zero => intro i x0 x1; rfl
  | succ n ih =>
    intro i x0 x1
    have hdeg : |c - c| < DEGEN_TOL := by
      simp [DEGEN_TOL]
    rw [findRootAux, if_pos hdeg]
    simp only [hf, ih]

theorem findRootAux_ok (f : ℚ → ℚ) (rand : ℕ → ℚ) :
    ∀ fuel i x0 f0 x1 f1 r,
      (findRootAux f rand fuel i x0 f0 x1 f1).1 = .ok r → |f r| < EPSILON := by
  intro fuel
  induction fuel with
  | zero =>
    intro i x0 f0 x1 f1 r h
    simp [findRootAux] at h
  | succ n ih =>
    intro i x0 f0 x1 f1 r h
    rw [findRootAux] at h
    by_cases hdeg : |f1 - f0| < DEGEN_TOL
    · rw [if_pos hdeg] at h
      exact ih _ _ _ _ _ _ h
    · rw [if_neg hdeg] at h
      by_cases hconv :
          |f (x1 - f1 * (x1 - x0) / (f1 - f0))| < EPSILON
      · simp only [hconv, if_pos] at h
        cases h
        exact hconv
      · simp only [hconv, if_neg, if_false] at h
        exact ih _ _ _ _ _ _ h

theorem findRootAux_iters (f : ℚ → ℚ) (rand : ℕ → ℚ) :
    ∀ fuel i x0 f0 x1 f1,
      (findRootAux f rand fuel i x0 f0 x1 f1).2.1 +
        (findRootAux f rand fuel i x0 f0 x1 f1).2.2 ≤ fuel := by
  intro fuel
  induction fuel with
  | zero =>
    intro i x0 f0 x1 f1
    simp [findRootAux]
  | succ n ih =>
    intro i x0 f0 x1 f1
    rw [findRootAux]
    by_cases hdeg : |f1 - f0| < DEGEN_TOL
    · rw [if_pos hdeg]
      have := ih (i + 1) x0 f0 (x1 + (rand i - 1 / 2) * (1 / 10))
        (f (x1 + (rand i - 1 / 2) * (1 / 10)))
      simp only []
      omega
    · rw [if_neg hdeg]
      by_cases hconv : |f (x1 - f1 * (x1 - x0) / (f1 - f0))| < EPSILON
      · simp only [hconv, if_pos]
        omega
      · simp only [hconv, if_neg, if_false]
        have := ih (i + 1) x1 f1 (x1 - f1 * (x1 - x0) / (f1 - f0))
          (f (x1 - f1 * (x1 - x0) / (f1 - f0)))
        omega

/-- C4 (amended): inside the secant loop, whenever the two most recent
function values satisfy the degenerate condition, `x1` is perturbed by the
random offset `(rand − 1/2)·0.1`, which lies in `[−0.05, 0.05]` when the
random draw lies in `[0, 1)`; `f` is re-evaluated at the perturbed point
and the loop continues with `x0, f0` unchanged and no secant update
performed — but, contrary to the claim's parenthetical, the pass does
consume one unit of the 1000-iteration budget (`fuel + 1` recurses at
`fuel`) while incrementing only the perturbation counter. -/
theorem claims_C4 (f : ℚ → ℚ) (rand : ℕ → ℚ) (fuel i : ℕ) (x0 f0 x1 f1 : ℚ)
    (hdeg : |f1 - f0| < DEGEN_TOL) :
    findRootAux f rand (fuel + 1) i x0 f0 x1 f1 =
      ((findRootAux f rand fuel (i + 1) x0 f0 (x1 + (rand i - 1 / 2) * (1 / 10))
          (f (x1 + (rand i - 1 / 2) * (1 / 10)))).1,
        (findRootAux f rand fuel (i + 1) x0 f0 (x1 + (rand i - 1 / 2) * (1 / 10))
          (f (x1 + (rand i - 1 / 2) * (1 / 10)))).2.1,
        (findRootAux f rand fuel (i + 1) x0 f0 (x1 + (rand i - 1 / 2) * (1 / 10))
          (f (x1 + (rand i - 1 / 2) * (1 / 10)))).2.2 + 1) ∧
    (0 ≤ rand i → rand i < 1 →
      -(1 / 20) ≤ (rand i - 1 / 2) * (1 / 10) ∧ (rand i - 1 / 2) * (1 / 10) ≤ 1 / 20) := by
  constructor
  · rw [findRootAux, if_pos hdeg]
  · intro h0 h1
    constructor <;> nlinarith

/-- Counterexample to C4 as stated: on the constant function 1 every loop
pass takes the perturbation branch, no secant step is ever performed, and
yet `findRoot` exhausts the 1000-iteration budget and raises the
convergence error — which could not happen if perturbation passes did not
consume the budget. -/
theorem claims_C4_counterexample :
    findRootSteps (fun _ => (1 : ℚ)) 0 (fun _ => 1 / 2) =
      (.error (.convergence findRootMsg), 0, 1000) := by
  have h := findRootAux_const (fun _ => (1 : ℚ)) 1 (fun _ => rfl) (fun _ => 1 / 2)
    MAX_ITER 0 0 (0 + 1 / 10)
  have he : ¬ (|(1 : ℚ)| < EPSILON) := by norm_num [EPSILON]
  rw [findRootSteps]
  rw [if_neg he, if_neg he]
  exact h

/-- Witness for the amended C4 at concrete inputs. -/
theorem claims_C4_witness :
    -(1 / 20 : ℚ) ≤ ((1 / 2 : ℚ) - 1 / 2) * (1 / 10) ∧
      ((1 / 2 : ℚ) - 1 / 2) * (1 / 10) ≤ 1 / 20 :=
  (claims_C4 (fun _ => 1) (fun _ => 1 / 2) 0 0 0 1 0 1
    (by norm_num [DEGEN_TOL])).2 (by norm_num) (by norm_num)

/-- C5: every value `findRoot` returns satisfies `|f r| < 1e-8` (for every
outcome of the random stream), and the two entry short-circuits return
`guess` resp. `guess + 0.1` exactly, with zero secant steps and zero
perturbations performed. -/
theorem claims_C5 (f : ℚ → ℚ) (guess : ℚ) (rand : ℕ → ℚ) :
    (∀ r, findRoot f guess rand = .ok r → |f r| < EPSILON) ∧
    (|f guess| < EPSILON → findRootSteps f guess rand = (.ok guess, 0, 0)) ∧
    (¬ |f guess| < EPSILON → |f (guess + 1 / 10)| < EPSILON →
      findRootSteps f guess rand = (.ok (guess + 1 / 10), 0, 0)) := by
  refine ⟨?_, ?_, ?_⟩
  · intro r h
    rw [findRoot, findRootSteps] at h
    by_cases h0 : |f guess| < EPSILON
    · rw [if_pos h0] at h
      simp only [Prod.fst] at h
      cases h
      exact h0
    · rw [if_neg h0] at h
      by_cases h1 : |f (guess + 1 / 10)| < EPSILON
      · rw [if_pos h1] at h
        simp only [Prod.fst] at h
        cases h
        exact h1
      · rw [if_neg h1] at h
        exact findRootAux_ok f rand MAX_ITER 0 guess (f guess) (guess + 1 / 10)
          (f (guess + 1 / 10)) r h
  · intro h0
    rw [findRootSteps]
    rw [if_pos h0]
  · intro h0 h1
    rw [findRootSteps]
    rw [if_neg h0, if_pos h1]

/-- Witness for C5 at concrete inputs exercising all three conjuncts. -/
theorem claims_C5_witness :
    |(0 : ℚ)| < EPSILON ∧
    findRootSteps (fun q => q) 0 (fun _ => 0) = (.ok 0, 0, 0) ∧
    findRootSteps (fun q => q - 1 / 10) 0 (fun _ => 0) = (.ok (0 + 1 / 10), 0, 0) := by
  have h2 := (claims_C5 (fun q => q) 0 (fun _ => 0)).2.1 (by norm_num [EPSILON])
  have h3 := (claims_C5 (fun q => q - 1 / 10) 0 (fun _ => 0)).2.2
    (by norm_num [EPSILON, abs_of_pos]) (by norm_num [EPSILON])
  have h1 := (claims_C5 (fun q => q) 0 (fun _ => 0)).1 0 (by rw [findRoot, h2])
  exact ⟨h1, h2, h3⟩

theorem sweepGo_calls_le (f : ℚ → ℚ) (xStart dx : ℚ) (rands : ℕ → ℕ → ℚ) :
    ∀ rem i prevX prevY, (sweepGo f xStart dx rands rem i prevX prevY).2 ≤ rem := by
  intro rem
  induction rem with
  | zero => intro i prevX prevY; simp [sweepGo]
  | succ n ih =>
    intro i prevX prevY
    rw [sweepGo]
    by_cases hs : prevY * f (xStart + i * dx) ≤ 0
    · rw [if_pos hs]
      cases hfr : findRoot f ((prevX + (xStart + i * dx)) / 2) (rands i) with
      | ok r =>
        have := ih (i + 1) (xStart + i * dx) (f (xStart + i * dx))
        simp only [Prod.snd]
        omega
      | error e =>
        have := ih (i + 1) (xStart + i * dx) (f (xStart + i * dx))
        simp only [Prod.snd]
        omega
    · rw [if_neg hs]
      exact Nat.le_succ_of_le (ih (i + 1) (xStart + i * dx) (f (xStart + i * dx)))

/-- C8: `findRoot` performs at most `MAX_ITER = 1000` loop passes (secant
updates plus perturbations), and the sweep of `findAllRoots` makes at most
one inner `findRoot` call per subdivision step; both are total functions
of their inputs, so each either returns or raises — never hangs. -/
theorem claims_C8 (f : ℚ → ℚ) (guess : ℚ) (rand : ℕ → ℚ) (xStart dx prevX prevY : ℚ)
    (steps i : ℕ) (rands : ℕ → ℕ → ℚ) :
    (findRootSteps f guess rand).2.1 + (findRootSteps f guess rand).2.2 ≤ MAX_ITER ∧
    (sweepGo f xStart dx rands steps i prevX prevY).2 ≤ steps := by
  constructor
  · rw [findRootSteps]
    by_cases h0 : |f guess| < EPSILON
    · rw [if_pos h0]
      simp [MAX_ITER]
    · rw [if_neg h0]
      by_cases h1 : |f (guess + 1 / 10)| < EPSILON
      · rw [if_pos h1]
        simp [MAX_ITER]
      · rw [if_neg h1]
        exact findRootAux_iters f rand MAX_ITER 0 guess (f guess) (guess + 1 / 10)
          (f (guess + 1 / 10))
  · exact sweepGo_calls_le f xStart dx rands steps i prevX prevY

theorem foldl_add_sum (g : ℕ → ℚ) (l : List ℕ) (init : ℚ) :
    l.foldl (fun s i => s + g i) init = init + (l.map g).sum := by
  induction l generalizing init with
  | nil => simp
  | cons a l ih => simp [ih, add_assoc]

theorem range'_map_sum (g : ℕ → ℚ) (m : ℕ) :
    ((List.range' 1 m).map g).sum = ∑ i ∈ Finset.Ico 1 (m + 1), g i := by
  induction m with
  | zero => simp
  | succ k ih =>
    rw [List.range'_concat, List.map_append, List.sum_append, ih,
      show ∑ i ∈ Finset.Ico 1 (k + 1 + 1), g i
          = ∑ i ∈ Finset.Ico 1 (k + 1), g i + g (k + 1) from
        Finset.sum_Ico_succ_top (by omega) g]
    simp [Nat.add_comm]

theorem integrateLoop_sum (f : ℚ → ℚ) (a h : ℚ) (n : ℕ) (hn : 1 ≤ n) (sum0 : ℚ) :
    integrateLoop f a h n sum0 =
      sum0 + ∑ i ∈ Finset.Ico 1 n, simpsonWeight i * f (a + (i : ℚ) * h) := by
  rw [integrateLoop, foldl_add_sum, range'_map_sum]
  have hone : n - 1 + 1 = n := by omega
  rw [hone]

theorem jsAddV_nan_left (v : JSVal) : jsAddV JSVal.nan v = JSVal.nan := by
  cases v <;> rfl

theorem jsMulV_nan_right (v : JSVal) : jsMulV v JSVal.nan = JSVal.nan := by
  cases v <;> rfl

theorem integrateValLoop_nan (f : ℚ → JSVal) (a h : ℚ) (n : ℕ) :
    integrateValLoop f a h n JSVal.nan = JSVal.nan := by
  rw [integrateValLoop]
  generalize List.range' 1 (n - 1) = l
  induction l with
  | nil => rfl
  | cons i l ih =>
    rw [List.foldl_cons, jsAddV_nan_left]
    exact ih

/-- C2: `integrate` first pads `n` up to the next multiple of 3 (so `n = 10`
runs as `n = 12`), then returns `(3h/8) · S` with `h = (b − a)/n` over the
padded `n` and `S` the weighted node sum with interior weight 2 at
multiples of 3 and 3 otherwise; and it is a total function that raises no
error on non-finite values — a non-finite integrand value propagates into
the returned value. -/
theorem claims_C2 (f : ℚ → ℚ) (g : ℚ → JSVal) (a b : ℚ) (n0 : ℕ) :
    (0 < n0 →
      integrate f a b n0 =
        3 * ((b - a) / (pad3 n0 : ℚ)) / 8 *
          (f a + f b +
            ∑ i ∈ Finset.Ico 1 (pad3 n0),
              (if i % 3 = 0 then (2 : ℚ) else 3) *
                f (a + (i : ℚ) * ((b - a) / (pad3 n0 : ℚ))))) ∧
    3 ∣ pad3 n0 ∧ n0 ≤ pad3 n0 ∧ pad3 n0 < n0 + 3 ∧ pad3 10 = 12 ∧
    (g a = JSVal.nan → integrateVal g a b n0 = JSVal.nan) := by
  refine ⟨?_, ?_, ?_, ?_, by decide, ?_⟩
  · intro hn
    have hp : 1 ≤ pad3 n0 := by
      rw [pad3]; split <;> omega
    rw [integrate, integrateLoop_sum f a _ _ hp]
    simp only [simpsonWeight]
  · rw [pad3]; split <;> omega
  · rw [pad3]; split <;> omega
  · rw [pad3]; split <;> omega
  · intro hga
    rw [integrateVal, hga, jsAddV_nan_left, integrateValLoop_nan, jsMulV_nan_right]

/-- Witness for C2 at concrete inputs. -/
theorem claims_C2_witness :
    integrate (fun _ => (1 : ℚ)) 0 1 3 =
      3 * ((1 - 0) / (pad3 3 : ℚ)) / 8 *
        (1 + 1 + ∑ i ∈ Finset.Ico 1 (pad3 3),
          (if i % 3 = 0 then (2 : ℚ) else 3) * 1) ∧
    integrateVal (fun _ => JSVal.nan) 0 1 3 = JSVal.nan := by
  constructor
  · exact (claims_C2 (fun _ => 1) (fun _ => JSVal.nan) 0 1 3).1 (by norm_num)
  · exact (claims_C2 (fun _ => 1) (fun _ => JSVal.nan) 0 1 3).2.2.2.2.2 rfl

theorem integrateLoop_zero (a h : ℚ) (n : ℕ) (s0 : ℚ) :
    integrateLoop (fun _ => 0) a h n s0 = s0 := by
  rw [integrateLoop]
  generalize List.range' 1 (n - 1) = l
  induction l generalizing s0 with
  | nil => rfl
  | cons i l ih =>
    rw [List.foldl_cons]
    have e : s0 + simpsonWeight i * (0 : ℚ) = s0 := by ring
    rw [e]
    exact ih s0

theorem integrate_zero (a b : ℚ) (n0 : ℕ) : integrate (fun _ => 0) a b n0 = 0 := by
  rw [integrate, integrateLoop_zero]
  ring

theorem findRoot_const (g : ℚ → ℚ) (c : ℚ) (hg : ∀ x, g x = c) (hc : EPSILON ≤ |c|)
    (guess : ℚ) (rand : ℕ → ℚ) :
    findRoot g guess rand = .error (.convergence findRootMsg) := by
  rw [findRoot, findRootSteps]
  simp only [hg]
  rw [if_neg (not_lt.2 hc), if_neg (not_lt.2 hc),
    findRootAux_const g c hg rand MAX_ITER 0 guess (guess + 1 / 10)]

/-- C6: `solveLimit` validates the two numeric strings before anything
else — for every integrand `f` it raises the identifying `ParseError` when
a string parses to `NaN` — and when validation passes but the inner
`findRoot` on the integral-difference objective fails, it re-raises as the
convergence error stating the integration limit did not converge and the
function might not reach the target area. -/
theorem claims_C6 (f : ℚ → ℚ) (knownStr areaStr : String) (isUpper : Bool)
    (rand : ℕ → ℚ) :
    (jsParseFloat knownStr = JSVal.nan →
      solveLimit f knownStr isUpper areaStr rand =
        .error (.parse "Known limit is invalid.")) ∧
    (∀ k, jsParseFloat knownStr = JSVal.num k → jsParseFloat areaStr = JSVal.nan →
      solveLimit f knownStr isUpper areaStr rand =
        .error (.parse "Area is invalid.")) ∧
    (∀ k t e, jsParseFloat knownStr = JSVal.num k →
      jsParseFloat areaStr = JSVal.num t →
      findRoot (solveLimitG f k t isUpper) (solveLimitGuess f k t isUpper) rand =
        .error e →
      solveLimit f knownStr isUpper areaStr rand =
        .error (.convergence solveLimitMsg)) := by
  refine ⟨?_, ?_, ?_⟩
  · intro h
    simp only [solveLimit, h]
  · intro k hk ha
    simp only [solveLimit, hk, ha]
  · intro k t e hk ht hf
    simp only [solveLimit, hk, ht, hf]

/-- Witness for C6: both validation failures at concrete bad strings, and
the re-raised convergence failure on an objective that never reaches the
target area (zero integrand, target area 1). -/
theorem claims_C6_witness :
    solveLimit (fun _ => (0 : ℚ)) "abc" true "1" (fun _ => 1 / 2) =
      .error (.parse "Known limit is invalid.") ∧
    solveLimit (fun _ => (0 : ℚ)) "0" true "zz" (fun _ => 1 / 2) =
      .error (.parse "Area is invalid.") ∧
    solveLimit (fun _ => (0 : ℚ)) "0" true "1" (fun _ => 1 / 2) =
      .error (.convergence solveLimitMsg) := by
  have hG : ∀ x, solveLimitG (fun _ => (0 : ℚ)) 0 1 true x = -1 := by
    intro x
    rw [solveLimitG]
    rw [integrate_zero]
    norm_num
  have hp0 : jsParseFloat "0" = JSVal.num 0 := by
    have h : jsParseFloat "0"
        = JSVal.num ((1 : ℚ) * ((((0 : ℕ)) : ℚ) + (((0 : ℕ)) : ℚ) / 10 ^ (0 : ℕ)) *
            (10 : ℚ) ^ (0 : ℤ)) := rfl
    rw [h]
    norm_num
  have hp1 : jsParseFloat "1" = JSVal.num 1 := by
    have h : jsParseFloat "1"
        = JSVal.num ((1 : ℚ) * ((((1 : ℕ)) : ℚ) + (((0 : ℕ)) : ℚ) / 10 ^ (0 : ℕ)) *
            (10 : ℚ) ^ (0 : ℤ)) := rfl
    rw [h]
    norm_num
  refine ⟨?_, ?_, ?_⟩
  · exact (claims_C6 (fun _ => 0) "abc" "1" true (fun _ => 1 / 2)).1 rfl
  · exact (claims_C6 (fun _ => 0) "0" "zz" true (fun _ => 1 / 2)).2.1 0 hp0 rfl
  · exact (claims_C6 (fun _ => 0) "0" "1" true (fun _ => 1 / 2)).2.2 0 1
      (.convergence findRootMsg) hp0 hp1
      (findRoot_const _ (-1) hG (by norm_num [EPSILON]) _ _)

theorem findRootSteps_entry_guess (f : ℚ → ℚ) (guess : ℚ) (rand : ℕ → ℚ)
    (h : |f guess| < EPSILON) : findRootSteps f guess rand = (.ok guess, 0, 0) := by
  rw [findRootSteps, if_pos h]

theorem dedupRoots_pairwise (l : List ℚ) :
    (dedupRoots l).Pairwise (fun a b => DEDUP_TOL ≤ |a - b|) := by
  rw [dedupRoots]
  suffices h : ∀ acc : List ℚ, acc.Pairwise (fun a b => DEDUP_TOL ≤ |a - b|) →
      (List.foldl (fun acc r =>
        if acc.any (fun ur => |r - ur| < DEDUP_TOL) then acc else acc ++ [r]) acc l).Pairwise
        (fun a b => DEDUP_TOL ≤ |a - b|) by
    exact h [] List.Pairwise.nil
  induction l with
  | nil => intro acc hacc; exact hacc
  | cons r l ih =>
    intro acc hacc
    rw [List.foldl_cons]
    by_cases hd : acc.any (fun ur => |r - ur| < DEDUP_TOL)
    · rw [if_pos hd]
      exact ih acc hacc
    · rw [if_neg hd]
      apply ih
      rw [List.pairwise_append]
      simp only [List.any_eq_true, not_exists, not_and, decide_eq_true_eq] at hd
      refine ⟨hacc, List.pairwise_singleton _ _, ?_⟩
      intro a ha b hb
      rw [List.mem_singleton] at hb
      subst hb
      rw [abs_sub_comm]
      exact not_lt.1 (hd a ha)

/-- C3: when `findAllRoots` returns normally, the result is a non-empty
list whose elements are pairwise at least `1e-5` apart (the dedup keeps
only the first of any close pair), sorted ascending by absolute distance
from the caller's guess, and a permutation of the deduplicated candidate
set; moreover the sort is stable, so ties keep discovery order (seeded
root first, then sweep roots in ascending `x`): any two roots equidistant
from the guess that appear in some order in the deduplicated candidate
list — which lists survivors in discovery order — appear in that same
order in the result. When the deduplicated set is empty, the
ConvergenceError is raised instead. -/
theorem claims_C3 (f : ℚ → ℚ) (guess range : ℚ) (steps : ℕ) (rands : ℕ → ℕ → ℚ) :
    (∀ l, findAllRoots f guess range steps rands = .ok l →
      l ≠ [] ∧
      l.Pairwise (fun a b => DEDUP_TOL ≤ |a - b|) ∧
      l.Pairwise (fun a b => |a - guess| ≤ |b - guess|) ∧
      l.Perm (dedupRoots (candidateRoots f guess range steps rands)) ∧
      (∀ a b : ℚ, |a - guess| = |b - guess| →
        [a, b].Sublist (dedupRoots (candidateRoots f guess range steps rands)) →
        [a, b].Sublist l)) ∧
    (dedupRoots (candidateRoots f guess range steps rands) = [] →
      findAllRoots f guess range steps rands = .error (.convergence findAllRootsMsg)) := by
  have htrans : ∀ a b c : ℚ, distLe guess a b = true → distLe guess b c = true →
      distLe guess a c = true := by
    intro a b c
    simp only [distLe, decide_eq_true_eq]
    exact le_trans
  have htotal : ∀ a b : ℚ, (distLe guess a b || distLe guess b a) = true := by
    intro a b
    simp only [distLe, Bool.or_eq_true, decide_eq_true_eq]
    exact le_total _ _
  constructor
  · intro l hl
    rw [findAllRoots] at hl
    by_cases hu : dedupRoots (candidateRoots f guess range steps rands) = []
    · rw [if_pos hu] at hl
      cases hl
    · rw [if_neg hu] at hl
      injection hl with hl2
      subst hl2
      have hperm := List.mergeSort_perm
        (dedupRoots (candidateRoots f guess range steps rands)) (distLe guess)
      refine ⟨?_, ?_, ?_, hperm, ?_⟩
      · intro hnil
        rw [hnil] at hperm
        exact hu hperm.symm.eq_nil
      · exact (hperm.pairwise_iff (fun h => by rwa [abs_sub_comm])).2
          (dedupRoots_pairwise _)
      · have hs := List.sorted_mergeSort htrans htotal
          (dedupRoots (candidateRoots f guess range steps rands))
        exact hs.imp (fun h => by simpa [distLe, decide_eq_true_eq] using h)
      · intro a b hab hsub
        have hpw : List.Pairwise (fun x y => distLe guess x y = true) [a, b] := by
          simp [List.pairwise_cons, distLe, hab]
        exact List.sublist_mergeSort htrans htotal hpw hsub
  · intro hu
    rw [findAllRoots, if_pos hu]

/-- Witness for C3 at concrete instances: `f = x` with guess `0` gives the
single seeded root `0`; `tieWitnessFn` with guess `0`, range `2` and two
sweep steps gives candidates `0, −1, 1` with `−1` and `1` tied in distance
from the guess, exercising the stability conjunct. -/
theorem claims_C3_witness :
    [(0 : ℚ)] ≠ [] ∧
    List.Pairwise (fun a b => DEDUP_TOL ≤ |a - b|) [(0 : ℚ)] ∧
    List.Pairwise (fun a b : ℚ => |a - 0| ≤ |b - 0|) [(0 : ℚ)] ∧
    List.Perm [(0 : ℚ)] (dedupRoots (candidateRoots (fun x => x) 0 50 0 (fun _ _ => 0))) ∧
    [(-1 : ℚ), 1].Sublist (([0, -1, 1] : List ℚ).mergeSort (distLe 0)) := by
  have h0 : |(fun x : ℚ => x) 0| < EPSILON := by norm_num [EPSILON]
  have hfr : findRoot (fun x : ℚ => x) 0 (fun _ => 0) = .ok 0 := by
    rw [findRoot, findRootSteps_entry_guess _ _ _ h0]
  have hc : candidateRoots (fun x : ℚ => x) 0 50 0 (fun _ _ => 0) = [0] := by
    simp only [candidateRoots]
    rw [hfr]
    simp [sweepGo]
  have hd : dedupRoots [(0 : ℚ)] = [0] := by
    simp [dedupRoots]
  have hall : findAllRoots (fun x : ℚ => x) 0 50 0 (fun _ _ => 0) = .ok [0] := by
    rw [findAllRoots, hc, hd]
    simp [List.mergeSort]
  have h1 := (claims_C3 (fun x => x) 0 50 0 (fun _ _ => 0)).1 [0] hall
  have hv0 : tieWitnessFn 0 = 0 := by norm_num [tieWitnessFn]
  have hvm1 : tieWitnessFn (-1) = 0 := by norm_num [tieWitnessFn]
  have hv1 : tieWitnessFn 1 = 0 := by norm_num [tieWitnessFn]
  have hvm2 : tieWitnessFn (-2) = 1 := by norm_num [tieWitnessFn]
  have hv2 : tieWitnessFn 2 = 1 := by norm_num [tieWitnessFn]
  have habs0 : |tieWitnessFn 0| < EPSILON := by rw [hv0]; norm_num [EPSILON]
  have habsm1 : |tieWitnessFn (-1)| < EPSILON := by rw [hvm1]; norm_num [EPSILON]
  have habs1 : |tieWitnessFn 1| < EPSILON := by rw [hv1]; norm_num [EPSILON]
  have hfr0 : findRoot tieWitnessFn 0 (fun _ => 0) = .ok 0 := by
    rw [findRoot, findRootSteps_entry_guess _ _ _ habs0]
  have hfrm1 : findRoot tieWitnessFn (-1) (fun _ => 0) = .ok (-1) := by
    rw [findRoot, findRootSteps_entry_guess _ _ _ habsm1]
  have hfr1 : findRoot tieWitnessFn 1 (fun _ => 0) = .ok 1 := by
    rw [findRoot, findRootSteps_entry_guess _ _ _ habs1]
  have hsweep : sweepGo tieWitnessFn (-2) 2 (fun _ _ => 0) 2 1 (-2) (tieWitnessFn (-2))
      = ([-1, 1], 2) := by
    norm_num [sweepGo, hv0, hv2, hvm2, hfrm1, hfr1]
  have hc3 : candidateRoots tieWitnessFn 0 2 2 (fun _ _ => 0) = [0, -1, 1] := by
    simp only [candidateRoots]
    rw [hfr0]
    norm_num [hsweep]
  have e1 : ([(0 : ℚ)].any fun ur => |(-1) - ur| < DEDUP_TOL) = false := by
    simp only [List.any_cons, List.any_nil, Bool.or_false, decide_eq_false_iff_not]
    norm_num [DEDUP_TOL, abs_of_nonpos]
  have e2 : ([(0 : ℚ), -1].any fun ur => |1 - ur| < DEDUP_TOL) = false := by
    simp only [List.any_cons, List.any_nil, Bool.or_false, Bool.or_eq_false_iff,
      decide_eq_false_iff_not]
    constructor <;> norm_num [DEDUP_TOL, abs_of_nonneg]
  have hd3 : dedupRoots [(0 : ℚ), -1, 1] = [0, -1, 1] := by
    rw [dedupRoots]
    simp [List.foldl_cons, List.foldl_nil, e1, e2]
    norm_num [DEDUP_TOL, abs_of_nonneg, abs_of_nonpos]
  have hall3 : findAllRoots tieWitnessFn 0 2 2 (fun _ _ => 0)
      = .ok (([0, -1, 1] : List ℚ).mergeSort (distLe 0)) := by
    rw [findAllRoots, hc3, hd3]
    simp
  have h3 := (claims_C3 tieWitnessFn 0 2 2 (fun _ _ => 0)).1 _ hall3
  have hstab := h3.2.2.2.2 (-1) 1 (by norm_num [abs_of_nonpos, abs_of_nonneg])
    (by rw [hc3, hd3]; exact List.Sublist.cons 0 (List.Sublist.refl _))
  exact ⟨h1.1, h1.2.1, h1.2.2.1, h1.2.2.2.1, hstab⟩

/-- C1 (code bug): the fourth normalization rewrite captures a single
letter before `(`, and no recognized function name is one letter, so the
guard protecting function applications never fires: every recognized
application `g(E)` is rewritten to `g*(E)` — here shown for all twelve
function names. Compiling `sin(x)` therefore yields the postfix program
`x, *, sin, 0, -` in which `*` pops `undefined` for its left operand, so
the compiled function evaluates to the non-finite sentinel for every
input, not the application of `sin` to `x` that the claim (and the
source's own comment on the rewrite line) describes. -/
theorem claims_C1 :
    (∀ g ∈ FUNCTIONS, normalizeExpr (g ++ "(x)").data = (g ++ "*(x)").data) ∧
    compileProg "sin(x)" =
      .ok [Token.var, Token.op '*', Token.func "sin",
        Token.num (JSVal.num 0), Token.op '-'] ∧
    (∀ (env : MathEnv) (x : ℚ),
      evalRun env [Token.var, Token.op '*', Token.func "sin",
        Token.num (JSVal.num 0), Token.op '-'] x = .ok JSVal.nan) := by
  refine ⟨by decide, by rfl, ?_⟩
  intro env x
  have hstack : List.foldl (evalStep env x) []
      [Token.var, Token.op '*', Token.func "sin", Token.num (JSVal.num 0), Token.op '-']
      = [jsSub (some (env.fn "sin" JSVal.nan)) (some (JSVal.num 0))] := rfl
  have hsub : jsSub (some JSVal.nan) (some (JSVal.num 0)) = JSVal.nan := rfl
  rw [evalRun, hstack, env.fn_nan "sin", hsub]

/-- Witness for C1 at concrete inputs: the mangling of `sin(x)` and the
resulting constant non-finite value under a concrete environment. -/
theorem claims_C1_witness :
    normalizeExpr ("sin" ++ "(x)").data = ("sin" ++ "*(x)").data ∧
    evalRun trivialEnv [Token.var, Token.op '*', Token.func "sin",
      Token.num (JSVal.num 0), Token.op '-'] 0 = .ok JSVal.nan :=
  ⟨claims_C1.1 "sin" (by decide), claims_C1.2.2 trivialEnv 0⟩

/-- C10: the malformed equation `x=` (empty right-hand side) compiles
without error — the shunting-yard balances and the only structural check
the evaluator performs is that the final stack holds exactly one value —
and the compiled function returns the non-finite sentinel for every `x`:
the binary minus finds one operand, silently pops `undefined` for the
other, and pushes `NaN` instead of raising. -/
theorem claims_C10 :
    compileProg "x=" = .ok [Token.var, Token.op '-'] ∧
    (∀ (env : MathEnv) (x : ℚ),
      evalRun env [Token.var, Token.op '-'] x = .ok JSVal.nan) := by
  refine ⟨by rfl, ?_⟩
  intro env x
  rfl

theorem evalLoopSt_fst (env : MathEnv) (x : ℚ) :
    ∀ fuel i prog st, prog.length - i ≤ fuel → (evalLoopSt env x i prog st).1 = prog := by
  intro fuel
  induction fuel with
  | zero =>
    intro i prog st hf
    rw [evalLoopSt]
    rw [dif_neg (by omega : ¬ i < prog.length)]
  | succ n ih =>
    intro i prog st hf
    rw [evalLoopSt]
    by_cases h : i < prog.length
    · rw [dif_pos h]
      exact ih (i + 1) prog _ (by omega)
    · rw [dif_neg h]

theorem evalLoopSt_snd (env : MathEnv) (x : ℚ) :
    ∀ fuel i prog st, prog.length - i ≤ fuel →
      (evalLoopSt env x i prog st).2 = (prog.drop i).foldl (evalStep env x) st := by
  intro fuel
  induction fuel with
  | zero =>
    intro i prog st hf
    rw [evalLoopSt, dif_neg (by omega : ¬ i < prog.length),
      List.drop_eq_nil_of_le (by omega), List.foldl_nil]
  | succ n ih =>
    intro i prog st hf
    rw [evalLoopSt]
    by_cases h : i < prog.length
    · rw [dif_pos h, ih (i + 1) prog _ (by omega),
        List.drop_eq_getElem_cons h, List.foldl_cons]
      rfl
    · rw [dif_neg h, List.drop_eq_nil_of_le (by omega), List.foldl_nil]

/-- C9: evaluation of a compiled program is pure. In store-passing form a
call leaves the compiled postfix program unchanged and computes the same
value as the plain evaluator (so repeated calls at the same `x` agree
bit-for-bit in this model); the evaluator's result does not depend on the
ambient random stream; and `findRoot` observes its function argument only
through its input-output mapping, so the random perturbation can change
only which arguments `f` is called with, never the mapping itself. -/
theorem claims_C9 (env : MathEnv) (prog : List Token) (x : ℚ) :
    (evalRunSt env prog x).2 = prog ∧
    (evalRunSt env prog x).1 = evalRun env prog x ∧
    (∀ r1 r2 : ℕ → ℚ, evalRunR env prog x r1 = evalRunR env prog x r2) ∧
    (∀ (f1 f2 : ℚ → ℚ) (guess : ℚ) (rand : ℕ → ℚ),
      (∀ y, f1 y = f2 y) → findRoot f1 guess rand = findRoot f2 guess rand) := by
  refine ⟨?_, ?_, fun r1 r2 => rfl, ?_⟩
  · rw [evalRunSt]
    exact evalLoopSt_fst env x prog.length 0 prog [] (by omega)
  · rw [evalRunSt, evalRun]
    rw [evalLoopSt_snd env x prog.length 0 prog [] (by omega), List.drop_zero]
  · intro f1 f2 guess rand hf
    rw [funext hf]

/-- Witness for C9 at concrete inputs. -/
theorem claims_C9_witness :
    (evalRunSt trivialEnv [] 0).2 = [] ∧
    findRoot (fun _ : ℚ => 1) 0 (fun _ => 0) = findRoot (fun _ : ℚ => 1) 0 (fun _ => 0) :=
  ⟨(claims_C9 trivialEnv [] 0).1,
    (claims_C9 trivialEnv [] 0).2.2.2 _ _ 0 (fun _ => 0) (fun _ => rfl)⟩

theorem mem_dropWhile_of_not {α : Type} (p : α → Bool) (c : α) (hc : p c = false) :
    ∀ l : List α, c ∈ l → c ∈ l.dropWhile p := by
  intro l
  induction l with
  | nil => intro h; exact absurd h (List.not_mem_nil c)
  | cons a rest ih =>
    intro hm
    by_cases ha : p a = true
    · rw [List.dropWhile_cons, if_pos ha]
      rcases List.mem_cons.1 hm with rfl | h2
      · rw [hc] at ha
        exact absurd ha (by simp)
      · exact ih h2
    · rw [List.dropWhile_cons, if_neg ha]
      exact hm

theorem jsTrim_ne_nil (c : Char) (hc : isWsChar c = false) (l : List Char) (h : c ∈ l) :
    jsTrim l ≠ [] := by
  rw [jsTrim]
  intro hnil
  rw [List.reverse_eq_nil_iff] at hnil
  have h1 : c ∈ l.dropWhile isWsChar := mem_dropWhile_of_not _ _ hc l h
  have h2 : c ∈ (l.dropWhile isWsChar).reverse := List.mem_reverse.2 h1
  have h3 : c ∈ (l.dropWhile isWsChar).reverse.dropWhile isWsChar :=
    mem_dropWhile_of_not _ _ hc _ h2
  rw [hnil] at h3
  exact absurd h3 (List.not_mem_nil c)

theorem splitOnEq_ne_nil : ∀ l : List Char, splitOnEq l ≠ [] := by
  intro l
  induction l with
  | nil => simp [splitOnEq]
  | cons a rest ih =>
    rw [splitOnEq]
    by_cases ha : a = '='
    · rw [if_pos ha]
      simp
    · rw [if_neg ha]
      cases hp : splitOnEq rest with
      | nil => simp
      | cons p ps => simp

theorem splitOnEq_length : ∀ l : List Char, (splitOnEq l).length = l.count '=' + 1 := by
  intro l
  induction l with
  | nil => simp [splitOnEq]
  | cons a rest ih =>
    rw [splitOnEq]
    by_cases ha : a = '='
    · subst ha
      rw [if_pos rfl]
      simp [List.count_cons, ih]
    · rw [if_neg ha]
      cases hp : splitOnEq rest with
      | nil => exact absurd hp (splitOnEq_ne_nil rest)
      | cons p ps =>
        have h2 := ih
        rw [hp] at h2
        simp only [List.length_cons] at h2 ⊢
        simp [List.count_cons, ha]
        omega

theorem splitOnEq_mem (c : Char) (hc : c ≠ '=') :
    ∀ l : List Char, c ∈ l → ∃ p ∈ splitOnEq l, c ∈ p := by
  intro l
  induction l with
  | nil => intro h; exact absurd h (List.not_mem_nil c)
  | cons a rest ih =>
    intro hm
    rw [splitOnEq]
    by_cases ha : a = '='
    · rw [if_pos ha]
      have hm2 : c ∈ rest := by
        rcases List.mem_cons.1 hm with rfl | h2
        · exact absurd ha hc
        · exact h2
      obtain ⟨p, hp, hcp⟩ := ih hm2
      exact ⟨p, List.mem_cons_of_mem _ hp, hcp⟩
    · rw [if_neg ha]
      cases hsp : splitOnEq rest with
      | nil => exact absurd hsp (splitOnEq_ne_nil rest)
      | cons p ps =>
        rcases List.mem_cons.1 hm with rfl | h2
        · exact ⟨c :: p, List.mem_cons_self _ _, List.mem_cons_self _ _⟩
        · obtain ⟨q, hq, hcq⟩ := ih h2
          rw [hsp] at hq
          rcases List.mem_cons.1 hq with rfl | hq2
          · exact ⟨a :: q, List.mem_cons_self _ _, List.mem_cons_of_mem _ hcq⟩
          · exact ⟨q, List.mem_cons_of_mem _ hq2, hcq⟩

theorem mem_stripWs (c : Char) (hc : isWsChar c = false) (l : List Char) (h : c ∈ l) :
    c ∈ stripWs l := by
  rw [stripWs]
  exact List.mem_filter.2 ⟨h, by simp [hc]⟩

theorem mem_toLowerList (c : Char) (l : List Char) (h : c ∈ l) :
    c.toLower ∈ toLowerList l :=
  List.mem_map_of_mem Char.toLower h

theorem mem_insertStar (p q : Char → Bool) (c : Char) :
    ∀ l, c ∈ l → c ∈ insertStar p q l
  | [], h => h
  | [_], h => h
  | a :: b :: rest, h => by
    rw [insertStar]
    by_cases hpq : (p a && q b) = true
    · rw [if_pos hpq]
      rcases List.mem_cons.1 h with rfl | h2
      · exact List.mem_cons_self _ _
      rcases List.mem_cons.1 h2 with rfl | h3
      · exact List.mem_cons_of_mem _ (List.mem_cons_of_mem _ (List.mem_cons_self _ _))
      · exact List.mem_cons_of_mem _ (List.mem_cons_of_mem _
          (List.mem_cons_of_mem _ (mem_insertStar p q c rest h3)))
    · rw [if_neg hpq]
      rcases List.mem_cons.1 h with rfl | h2
      · exact List.mem_cons_self _ _
      · exact List.mem_cons_of_mem _ (mem_insertStar p q c (b :: rest) h2)

theorem mem_insertStarFn (c : Char) : ∀ l, c ∈ l → c ∈ insertStarFn l
  | [], h => h
  | [_], h => h
  | a :: b :: rest, h => by
    rw [insertStarFn]
    by_cases hab : (isLowerAlphaChar a && b = '(') = true
    · rw [if_pos hab]
      by_cases hfn : FUNCTIONS.contains (String.mk [a]) = true
      · rw [if_pos hfn]
        rcases List.mem_cons.1 h with rfl | h2
        · exact List.mem_cons_self _ _
        rcases List.mem_cons.1 h2 with rfl | h3
        · exact List.mem_cons_of_mem _ (List.mem_cons_self _ _)
        · exact List.mem_cons_of_mem _ (List.mem_cons_of_mem _ (mem_insertStarFn c rest h3))
      · rw [if_neg hfn]
        rcases List.mem_cons.1 h with rfl | h2
        · exact List.mem_cons_self _ _
        rcases List.mem_cons.1 h2 with rfl | h3
        · exact List.mem_cons_of_mem _ (List.mem_cons_of_mem _ (List.mem_cons_self _ _))
        · exact List.mem_cons_of_mem _ (List.mem_cons_of_mem _
            (List.mem_cons_of_mem _ (mem_insertStarFn c rest h3)))
    · rw [if_neg hab]
      rcases List.mem_cons.1 h with rfl | h2
      · exact List.mem_cons_self _ _
      · exact List.mem_cons_of_mem _ (mem_insertStarFn c (b :: rest) h2)

/-- One-step unfolding of the scanner on a nonempty list with fuel left
(the definitional equation, restated so single rewrites apply). -/
theorem scanTokensFuel_cons (n : ℕ) (a : Char) (rest : List Char) (prev : Option Char) :
    scanTokensFuel (n + 1) (a :: rest) prev =
      if isOpChar a then
        (scanTokensFuel n rest (some a)).map (fun ts =>
          (if (a = '-' || a = '+') &&
              (match prev with | none => true | some p => unaryPrevChar p) then
            Token.unary (a = '-')
          else Token.op a) :: ts)
      else if isLowerAlphaChar a then
        match classifyName (a :: rest.takeWhile isAlnumChar) with
        | .error e => .error e
        | .ok t => (scanTokensFuel n (rest.dropWhile isAlnumChar)
            (some ((a :: rest.takeWhile isAlnumChar).getLastD a))).map (fun ts => t :: ts)
      else if isDigitDotChar a then
        (scanTokensFuel n (rest.dropWhile isDigitDotChar)
          (some ((a :: rest.takeWhile isDigitDotChar).getLastD a))).map
          (fun ts => Token.num (parseFloatDigits (a :: rest.takeWhile isDigitDotChar)) :: ts)
      else .error (.badChar a) := rfl

theorem scanTokensFuel_badChar (c : Char) (hc : scanBadChar c = true) :
    ∀ fuel (l : List Char) prev, l.length ≤ fuel → c ∈ l →
      ∃ e, scanTokensFuel fuel l prev = .error e := by
  simp only [scanBadChar, Bool.not_eq_true', Bool.or_eq_false_iff] at hc
  have hcop : isOpChar c = false := hc.1.1
  have hcal : isLowerAlphaChar c = false := hc.1.2
  have hcdd : isDigitDotChar c = false := hc.2
  have hcan : isAlnumChar c = false := by
    rw [isAlnumChar, hcal]
    rw [isDigitDotChar] at hcdd
    simp only [Bool.false_or]
    exact (Bool.or_eq_false_iff.1 hcdd).1
  intro fuel
  induction fuel with
  | zero =>
    intro l prev hl hm
    cases l with
    | nil => exact absurd hm (List.not_mem_nil c)
    | cons a rest => simp at hl
  | succ n ih =>
    intro l prev hl hm
    cases l with
    | nil => exact absurd hm (List.not_mem_nil c)
    | cons a rest =>
      rw [scanTokensFuel_cons]
      simp only [List.length_cons] at hl
      by_cases hopa : isOpChar a = true
      · rw [if_pos hopa]
        have hm2 : c ∈ rest := by
          rcases List.mem_cons.1 hm with rfl | h2
          · rw [hcop] at hopa
            exact absurd hopa (by simp)
          · exact h2
        obtain ⟨e, he⟩ := ih rest (some a) (by omega) hm2
        exact ⟨e, by rw [he]; rfl⟩
      · rw [if_neg hopa]
        by_cases hala : isLowerAlphaChar a = true
        · rw [if_pos hala]
          cases hcl : classifyName (a :: rest.takeWhile isAlnumChar) with
          | error e => exact ⟨e, by simp only [hcl]⟩
          | ok t =>
            have hm2 : c ∈ rest := by
              rcases List.mem_cons.1 hm with rfl | h2
              · rw [hcal] at hala
                exact absurd hala (by simp)
              · exact h2
            have hmem2 : c ∈ rest.dropWhile isAlnumChar :=
              mem_dropWhile_of_not _ _ hcan rest hm2
            have hlen : (rest.dropWhile isAlnumChar).length ≤ n :=
              le_trans (dropWhile_length_le _ _) (by omega)
            obtain ⟨e, he⟩ := ih _ (some ((a :: rest.takeWhile isAlnumChar).getLastD a))
              hlen hmem2
            exact ⟨e, by simp only [hcl]; rw [he]; rfl⟩
        · rw [if_neg hala]
          by_cases hdda : isDigitDotChar a = true
          · rw [if_pos hdda]
            have hm2 : c ∈ rest := by
              rcases List.mem_cons.1 hm with rfl | h2
              · rw [hcdd] at hdda
                exact absurd hdda (by simp)
              · exact h2
            have hmem2 : c ∈ rest.dropWhile isDigitDotChar :=
              mem_dropWhile_of_not _ _ hcdd rest hm2
            have hlen : (rest.dropWhile isDigitDotChar).length ≤ n :=
              le_trans (dropWhile_length_le _ _) (by omega)
            obtain ⟨e, he⟩ := ih _ (some ((a :: rest.takeWhile isDigitDotChar).getLastD a))
              hlen hmem2
            exact ⟨e, by rw [he]; rfl⟩
          · rw [if_neg hdda]
            exact ⟨.badChar a, rfl⟩

theorem tokenize_badChar (c : Char) (hbad : recognizedChar c = false) (l : List Char)
    (hm : c ∈ l) : ∃ e, tokenize l = .error e := by
  simp only [recognizedChar, Bool.or_eq_false_iff] at hbad
  have hw : isWsChar c = false := hbad.1.1.1.1
  have hscan : scanBadChar c.toLower = true := by
    rw [scanBadChar, hbad.1.1.2, hbad.1.2, hbad.2]
    rfl
  have h1 : c ∈ stripWs l := mem_stripWs c hw l hm
  have h2 : c.toLower ∈ toLowerList (stripWs l) := mem_toLowerList c _ h1
  have h3 : c.toLower ∈ normalizeExpr l := by
    rw [normalizeExpr]
    exact mem_insertStarFn _ _ (mem_insertStar _ _ _ _ (mem_insertStar _ _ _ _
      (mem_insertStar _ _ _ _ h2)))
  rw [tokenize, scanTokens]
  exact scanTokensFuel_badChar c.toLower hscan _ _ none le_rfl h3

/-- C7: `compile` raises a ParseError — before any numeric evaluation —
when the expression trims to empty, contains two or more `=`, or contains
any character outside the recognized alphabet; and at the given examples,
on an unknown identifier it names the identifier, and on unbalanced
parentheses it reports the mismatch (covering the closing-paren reduction
and the end-of-stream flush). -/
theorem claims_C7 :
    (∀ s : String, jsTrim s.data = [] → compileProg s = .error .emptyExpr) ∧
    (∀ s : String, 2 ≤ s.data.count '=' → compileProg s = .error .multipleEq) ∧
    (∀ (s : String) (c : Char), c ∈ s.data → recognizedChar c = false →
      ∃ e, compileProg s = .error e) ∧
    compileProg "foo(x)" = .error (.unknownName "foo") ∧
    compileProg "(2*x" = .error .mismatchedParens := by
  refine ⟨?_, ?_, ?_, by rfl, by rfl⟩
  · intro s h
    rw [compileProg, if_pos h]
  · intro s h
    have hmem : '=' ∈ s.data := List.count_pos_iff.1 (by omega)
    have htrim : jsTrim s.data ≠ [] := jsTrim_ne_nil '=' (by decide) s.data hmem
    rw [compileProg, if_neg htrim]
    have hcont : s.data.contains '=' = true := List.elem_iff.2 hmem
    have hlen : 2 < (splitOnEq s.data).length := by
      rw [splitOnEq_length]
      omega
    rw [if_pos ⟨hcont, hlen⟩]
  · intro s c hm hbad
    have hbad2 := hbad
    simp only [recognizedChar, Bool.or_eq_false_iff] at hbad2
    have hne : c ≠ '=' := by
      intro he
      have := hbad2.1.1.1.2
      rw [he] at this
      simp at this
    by_cases htrim : jsTrim s.data = []
    · exact ⟨.emptyExpr, by rw [compileProg, if_pos htrim]⟩
    by_cases hmul : s.data.contains '=' = true ∧ 2 < (splitOnEq s.data).length
    · exact ⟨.multipleEq, by rw [compileProg, if_neg htrim, if_pos hmul]⟩
    by_cases hq : s.data.contains '=' = true
    · -- exactly one `=`: the split has exactly two parts
      have hcount : 0 < s.data.count '=' :=
        List.count_pos_iff.2 (List.elem_iff.1 hq)
      have hlen2 : (splitOnEq s.data).length = 2 := by
        have hub : ¬ 2 < (splitOnEq s.data).length := fun hgt => hmul ⟨hq, hgt⟩
        rw [splitOnEq_length] at hub ⊢
        omega
      obtain ⟨p0, p1, hparts⟩ := List.length_eq_two.1 hlen2
      obtain ⟨p, hp, hcp⟩ := splitOnEq_mem c hne s.data hm
      rw [hparts] at hp
      have hcfull : c ∈ fullExpr p0 p1 := by
        rw [fullExpr]
        rcases List.mem_cons.1 hp with rfl | hp2
        · simp [hcp]
        · rcases List.mem_cons.1 hp2 with rfl | hp3
          · simp [hcp]
          · exact absurd hp3 (List.not_mem_nil p)
      obtain ⟨e, he⟩ := tokenize_badChar c hbad _ hcfull
      refine ⟨e, ?_⟩
      rw [compileProg, if_neg htrim, if_neg hmul]
      dsimp only
      rw [if_pos hq, if_pos hq, hparts]
      simp only [List.headD_cons, List.drop_succ_cons, List.drop_zero]
      rw [he]
    · -- no `=`: the whole string is the left-hand side
      have hcfull : c ∈ fullExpr s.data ['0'] := by
        rw [fullExpr]
        simp [hm]
      obtain ⟨e, he⟩ := tokenize_badChar c hbad _ hcfull
      refine ⟨e, ?_⟩
      rw [compileProg, if_neg htrim, if_neg hmul]
      dsimp only
      rw [if_neg hq, if_neg hq, he]

/-- Witness for C7 at concrete bad inputs: all-whitespace, two equals
signs, and a character outside the alphabet. -/
theorem claims_C7_witness :
    compileProg "  " = .error .emptyExpr ∧
    compileProg "1=2=3" = .error .multipleEq ∧
    (∃ e, compileProg "#" = .error e) :=
  ⟨claims_C7.1 "  " (by rfl),
   claims_C7.2.1 "1=2=3" (by decide),
   claims_C7.2.2.1 "#" '#' (by decide) (by decide)⟩
